import Mathlib

/-!
Verification of the ResumeAnalyzer repository (src/app.py).

Python strings are modelled as `List Char` (`Str`), file bytes as
`List Nat`, Python `None` as `Option.none`.  The one Python float in the
program, the match score `round(x, 1)`, is represented exactly as a
number of tenths of a percent (`score = tenths / 10`), with Python's
round-to-nearest, ties-to-even decimal rounding modelled on exact
rationals.  The external PDF/DOCX libraries called by
`extract_text_from_any` are modelled as an explicit environment
(`ExtractEnv`): each library call either raises (`none`) or returns its
pages/paragraphs, every call being wrapped in `try/except` in the source.

The employment-interval merge, the duration aggregator and the
credential detector that the specification describes do not appear in
`src/`; they are modelled from the spec (sections 4.2 and 4.4) and
marked as such below.
-/

namespace ResumeAnalyzer

/-- A Python string, modelled as its sequence of characters. -/
abbrev Str := List Char

/-- ASCII lowercasing of one character (Python `str.lower` on the ASCII
range, which is all the tokenizer's regex can match). -/
def lowerChar (c : Char) : Char :=
  if 'A' ≤ c ∧ c ≤ 'Z' then Char.ofNat (c.toNat + 32) else c

/-- Python `text.lower()`. -/
def lower (s : Str) : Str := s.map lowerChar

/-- The character class `[a-z0-9]` of the regex in `tokenize`. -/
def isTokChar (c : Char) : Bool :=
  ('a' ≤ c && c ≤ 'z') || ('0' ≤ c && c ≤ '9')

/-- Whitespace characters recognised by Python `str.strip()` and
`str.split()` (ASCII space, tab, newline, carriage return, vertical tab,
form feed). -/
def isPySpace (c : Char) : Bool :=
  c = ' ' || c = '\t' || c = '\n' || c = Char.ofNat 13 ||
    c = Char.ofNat 11 || c = Char.ofNat 12

/-- Python `s.strip()`. -/
def pyStrip (s : Str) : Str :=
  ((s.dropWhile isPySpace).reverse.dropWhile isPySpace).reverse

/-- Maximal runs of characters satisfying `p`; the accumulator holds the
current run, reversed.  With `p := isTokChar` this is
`re.findall(r"[a-z0-9]+", text)`. -/
def runsByAux (p : Char → Bool) : List Char → List Char → List Str
  | [], acc => if acc.isEmpty then [] else [acc.reverse]
  | c :: cs, acc =>
    if p c then runsByAux p cs (c :: acc)
    else if acc.isEmpty then runsByAux p cs []
    else acc.reverse :: runsByAux p cs []

/-- `re.findall(r"[a-z0-9]+", text)` from `tokenize`. -/
def findTokenRuns (text : Str) : List Str := runsByAux isTokChar text []

/-- The `STOPWORDS` set of app.py. -/
def STOPWORDS : List Str :=
  ["the","and","for","with","you","your","from","that","this","are","was","were",
   "have","has","had","will","would","shall","can","could","may","might",
   "a","an","in","on","at","of","to","as","by","or","if","it","its","is","be",
   "our","we","they","their","them","us","i"].map String.toList

/-- `tokenize` from app.py: lowercase the text, take the `[a-z0-9]+`
runs, and keep the words of length greater than 2 that are not
stopwords. -/
def tokenize (text : Str) : List Str :=
  (findTokenRuns (lower text)).filter
    (fun w => decide (2 < w.length ∧ w ∉ STOPWORDS))

/-- The keys of `collections.Counter(l)`, in first-occurrence order
(Python dictionaries preserve insertion order). -/
def counterKeys (l : List Str) : List Str := (l.reverse.dedup).reverse

/-- The multiplicity `Counter(l)[w]` of a token. -/
def countOcc (l : List Str) (w : Str) : ℕ :=
  @List.count _ instBEqOfDecidableEq w l

/-- Round `num / den` to the nearest integer, ties to even: Python
`round` applied to the exact rational `num / den`. -/
def roundHalfEvenNat (num den : ℕ) : ℕ :=
  if 2 * (num % den) < den then num / den
  else if den < 2 * (num % den) then num / den + 1
  else if (num / den) % 2 = 0 then num / den
  else num / den + 1

/-- `compute_match_score` from app.py.  The returned Python float
(score percent with one decimal) is the returned natural number of
tenths of a percent. -/
def compute_match_score (resume_text jd_text : Str) : ℕ × List Str :=
  let resume_tokens := tokenize resume_text
  let jd_tokens := tokenize jd_text
  if jd_tokens.isEmpty || resume_tokens.isEmpty then (0, [])
  else
    let overlap_tokens :=
      (counterKeys jd_tokens).filter (fun w => decide (w ∈ resume_tokens))
    if overlap_tokens.isEmpty then (0, [])
    else
      let raw_score := (overlap_tokens.map (countOcc jd_tokens)).sum
      let max_score := ((counterKeys jd_tokens).map (countOcc jd_tokens)).sum
      if max_score = 0 then (0, [])
      else
        let score := roundHalfEvenNat (raw_score * 1000) max_score
        let top_overlapping :=
          (overlap_tokens.insertionSort
            (fun a b => countOcc jd_tokens b ≤ countOcc jd_tokens a)).take 15
        (score, top_overlapping)

/-- The score as the specification words it: the sum of job-description
term frequencies of tokens that also occur in the resume, divided by the
total job-description term frequency, times 100, rounded to one decimal
place (expressed in tenths of a percent); 0 when either text tokenizes
to the empty list. -/
def specMatchScore (resume_text jd_text : Str) : ℕ :=
  let resume_tokens := tokenize resume_text
  let jd_tokens := tokenize jd_text
  if jd_tokens.isEmpty || resume_tokens.isEmpty then 0
  else
    roundHalfEvenNat
      ((jd_tokens.countP (fun w => decide (w ∈ resume_tokens))) * 1000)
      jd_tokens.length

/-- Python `sep.join(pieces)`. -/
def joinWith (sep : Str) : List Str → Str
  | [] => []
  | x :: xs =>
    match xs with
    | [] => x
    | _ :: _ => x ++ sep ++ joinWith sep xs

/-- The external document libraries used by `extract_text_from_any`,
as an abstract environment.  `pdfPages bs = none` models `PdfReader`
raising on these bytes; `some pages` models success, each page being
`none` when its `extract_text()` call raises (caught per page, the page
contributes `""`).  `docxParas` models `docx.Document` likewise. -/
structure ExtractEnv where
  pdfPages : List ℕ → Option (List (Option Str))
  docxParas : List ℕ → Option (List Str)

/-- The error message of the final fallthrough of
`extract_text_from_any`. -/
def cannotReadMsg : Str :=
  ("Could not read this file. Make sure it is a PDF or DOCX and that " ++
    "PyPDF2/python-docx are installed.").toList

/-- The DOCX half of `extract_text_from_any` (the second `try` block and
the final return). -/
def extractDocx (env : ExtractEnv) (bs : List ℕ) : Str × Str :=
  match env.docxParas bs with
  | some paragraphs =>
    let text := joinWith ['\n'] paragraphs
    if (pyStrip text).isEmpty then ([], cannotReadMsg) else (text, [])
  | none => ([], cannotReadMsg)

/-- `extract_text_from_any` from app.py: `None`/empty-bytes guard, then
the PDF attempt, then the DOCX attempt.  Returns `(text, error)`; the
error string is empty exactly on success. -/
def extract_text_from_any (env : ExtractEnv) (file_bytes : Option (List ℕ)) :
    Str × Str :=
  match file_bytes with
  | none => ([], "Please upload a file.".toList)
  | some bs =>
    if bs.length = 0 then ([], "Please upload a file.".toList)
    else
      match env.pdfPages bs with
      | some pages =>
        let text := joinWith ['\n'] (pages.map (fun p => p.getD []))
        if (pyStrip text).isEmpty then extractDocx env bs else (text, [])
      | none => extractDocx env bs

/-- Python `s.split(",")`; the accumulator holds the current piece,
reversed. -/
def splitCommaAux : List Char → List Char → List Str
  | [], acc => [acc.reverse]
  | c :: cs, acc =>
    if c = ',' then acc.reverse :: splitCommaAux cs []
    else splitCommaAux cs (c :: acc)

/-- Python `s.split(",")`. -/
def splitComma (s : Str) : List Str := splitCommaAux s []

/-- The parsed extra keywords of `analyze_fit`:
`[kw.strip().lower() for kw in extra_keywords_text.split(",") if kw.strip()]`. -/
def rawExtraKeywords (extra : Str) : List Str :=
  ((splitComma extra).filter (fun kw => !(pyStrip kw).isEmpty)).map
    (fun kw => lower (pyStrip kw))

/-- The extra keywords found in the tokenized resume (`matched_extra` of
`analyze_fit`; Python set membership is list membership). -/
def matchedExtra (resume_text extra : Str) : List Str :=
  (rawExtraKeywords extra).filter
    (fun kw => decide (kw ∈ tokenize resume_text))

/-- The extra keywords absent from the tokenized resume
(`missing_extra` of `analyze_fit`). -/
def missingExtra (resume_text extra : Str) : List Str :=
  (rawExtraKeywords extra).filter
    (fun kw => decide (kw ∉ tokenize resume_text))

/-- Python `f"{score}"` for the one-decimal float score held as tenths
of a percent. -/
def formatTenths (n : ℕ) : Str :=
  (toString (n / 10)).toList ++ ['.'] ++ (toString (n % 10)).toList

/-- The `details_lines` construction of `analyze_fit` (lines 150-177 of
app.py), joined with newlines. -/
def detailsText (score : ℕ) (top_keywords raw_extra matched_extra missing_extra :
    List Str) : Str :=
  let l1 : List Str :=
    ["Estimated AI match score: ".toList ++ formatTenths score ++ " %".toList,
     []]
  let l2 : List Str :=
    if !top_keywords.isEmpty then
      "Top overlapping keywords between resume and job description:".toList ::
        top_keywords.map (fun kw => "- ".toList ++ kw)
    else
      [("No strong keyword overlap found. The resume might be too generic " ++
        "or not aligned with this job description.").toList]
  let l3 : List Str :=
    if !raw_extra.isEmpty then
      ([[],
        "Additional keywords you asked to track (comma separated input):".toList]
       ++ (if !matched_extra.isEmpty then
             "Present in the resume:".toList ::
               matched_extra.map (fun kw => "- ".toList ++ kw)
           else [])
       ++ (if !missing_extra.isEmpty then
             "Missing from the resume:".toList ::
               missing_extra.map (fun kw => "- ".toList ++ kw)
           else []))
    else []
  let l4 : List Str :=
    [[],
     "Important:".toList,
     ("- This is a simple keyword-based resume analyzer, not a full " ++
       "assessment of a candidate.").toList,
     "- Humans are better at evaluating experience, context and potential.".toList,
     ("- Use this score as a rough signal only, never as the sole basis " ++
       "for hiring decisions.").toList]
  joinWith ['\n'] (l1 ++ l2 ++ l3 ++ l4)

/-- `analyze_fit` from app.py, the main handler: `None` guards, text
extraction for both files, the (dead) emptiness guards, score
computation, extra-keyword classification and details assembly.
`extra_keywords_text` is `Option Str` since the source accepts `None`
(`extra_keywords_text or ""`). -/
def analyze_fit (env : ExtractEnv) (resume_bytes jd_bytes : Option (List ℕ))
    (extra_keywords_text : Option Str) : Str × Str :=
  if resume_bytes = none ∧ jd_bytes = none then
    ("0 %".toList, "Please upload both a resume and a job description.".toList)
  else if resume_bytes = none then
    ("0 %".toList, "Please upload a resume file.".toList)
  else if jd_bytes = none then
    ("0 %".toList, "Please upload a job description file.".toList)
  else
    let resume_text := (extract_text_from_any env resume_bytes).1
    let err_resume := (extract_text_from_any env resume_bytes).2
    if !err_resume.isEmpty then
      ("0 %".toList, "Resume error: ".toList ++ err_resume)
    else
      let jd_text := (extract_text_from_any env jd_bytes).1
      let err_jd := (extract_text_from_any env jd_bytes).2
      if !err_jd.isEmpty then
        ("0 %".toList, "Job description error: ".toList ++ err_jd)
      else if (pyStrip resume_text).isEmpty then
        ("0 %".toList,
         ("Could not read any text from the resume. It may be scanned or " ++
           "image-only.").toList)
      else if (pyStrip jd_text).isEmpty then
        ("0 %".toList,
         ("Could not read any text from the job description. It may be " ++
           "scanned or image-only.").toList)
      else
        let score := (compute_match_score resume_text jd_text).1
        let top_keywords := (compute_match_score resume_text jd_text).2
        let extra := extra_keywords_text.getD []
        let details :=
          detailsText score top_keywords (rawExtraKeywords extra)
            (matchedExtra resume_text extra) (missingExtra resume_text extra)
        (formatTenths score ++ " %".toList, details)

/-- Modelled from the spec: the word count `len(text.split())` used by
the orchestrator's "fewer than 50 words" guard; no such guard or word
count appears in src/app.py. -/
def wordCount (s : Str) : ℕ := (runsByAux (fun c => !isPySpace c) s []).length

/-- Modelled from the spec: a calendar instant (year, month,
day-of-month) as used by the Interval Parser and Merger of spec section
4.3-4.4; none of that code appears in src/. -/
structure Date where
  year : ℕ
  month : ℕ
  day : ℕ
deriving DecidableEq, Repr

/-- Calendar order on instants (lexicographic on year, month, day). -/
def dateLE (a b : Date) : Prop :=
  a.year < b.year ∨
    (a.year = b.year ∧
      (a.month < b.month ∨ (a.month = b.month ∧ a.day ≤ b.day)))

instance : DecidableRel dateLE := fun a b => by
  unfold dateLE; exact inferInstance

theorem dateLE_refl (a : Date) : dateLE a a := by
  unfold dateLE; omega

theorem dateLE_trans {a b c : Date} (h1 : dateLE a b) (h2 : dateLE b c) :
    dateLE a c := by
  unfold dateLE at *; omega

theorem dateLE_total (a b : Date) : dateLE a b ∨ dateLE b a := by
  unfold dateLE; omega

/-- The later of two instants (`max` of the merge step). -/
def dmax (a b : Date) : Date := if dateLE a b then b else a

theorem dateLE_dmax_left (a b : Date) : dateLE a (dmax a b) := by
  unfold dmax; split
  · assumption
  · exact dateLE_refl a

theorem dateLE_dmax_right (a b : Date) : dateLE b (dmax a b) := by
  unfold dmax; split
  · exact dateLE_refl b
  · rcases dateLE_total a b with h | h
    · contradiction
    · exact h

/-- Modelled from the spec: an EmploymentInterval; the spec's `end`
field is called `stop` (`end` is reserved in Lean). -/
structure Interval where
  start : Date
  stop : Date
deriving DecidableEq, Repr

/-- Sort key of the merge step: ascending interval start. -/
def intervalLE (a b : Interval) : Prop := dateLE a.start b.start

instance : DecidableRel intervalLE := fun a b => by
  unfold intervalLE; exact inferInstance

instance : IsTotal Interval intervalLE :=
  ⟨fun a b => dateLE_total a.start b.start⟩

instance : IsTrans Interval intervalLE :=
  ⟨fun _ _ _ h1 h2 => dateLE_trans h1 h2⟩

/-- Modelled from the spec (4.4): the left-to-right merge over a
start-sorted sequence — extend the current interval's end while the next
start is at or before it, otherwise emit and restart. -/
def mergeSorted : Interval → List Interval → List Interval
  | cur, [] => [cur]
  | cur, i :: rest =>
    if dateLE i.start cur.stop then
      mergeSorted ⟨cur.start, dmax cur.stop i.stop⟩ rest
    else cur :: mergeSorted i rest

/-- Modelled from the spec (4.4): sort ascending by start (stably), then
merge overlapping or touching intervals left to right. -/
def mergeIntervals (ivs : List Interval) : List Interval :=
  match ivs.insertionSort intervalLE with
  | [] => []
  | c :: rest => mergeSorted c rest

/-- Modelled from the spec (4.4): whole months of one merged interval,
`(endYear - startYear) * 12 + (endMonth - startMonth)`, decremented by
one when the end day-of-month precedes the start day-of-month. -/
def monthsOf (i : Interval) : ℤ :=
  ((i.stop.year : ℤ) - i.start.year) * 12 +
    ((i.stop.month : ℤ) - i.start.month) -
    (if i.stop.day < i.start.day then 1 else 0)

/-- Round `num / den` (with `den > 0`) to the nearest integer, ties to
even: Python `round` on an exact rational. -/
def roundHalfEvenInt (num den : ℤ) : ℤ :=
  if 2 * (num % den) < den then num / den
  else if den < 2 * (num % den) then num / den + 1
  else if (num / den) % 2 = 0 then num / den
  else num / den + 1

/-- Modelled from the spec (4.4): the summed whole months of the merged
intervals. -/
def totalMonths (ivs : List Interval) : ℤ :=
  ((mergeIntervals ivs).map monthsOf).sum

/-- Modelled from the spec (4.4): total years `months / 12` rounded to
two decimals, represented exactly in hundredths of a year. -/
def totalYearsCents (ivs : List Interval) : ℤ :=
  roundHalfEvenInt (100 * totalMonths ivs) 12

/-- Modelled from the spec (4.2): the fixed degree-vocabulary-to-rank
mapping of the Credential Detector (ranks per spec section 8: master 5,
bachelor 4). -/
def DEGREE_RANKS : List (Str × ℕ) :=
  [("phd".toList, 6), ("master".toList, 5), ("bachelor".toList, 4),
   ("associate".toList, 3), ("high school diploma".toList, 2),
   ("ged".toList, 1)]

/-- Modelled from the spec: a detected academic credential. -/
structure Credential where
  name : Str
  rank : ℕ
  year : ℕ
deriving DecidableEq, Repr

/-- Python `needle in hay` on strings: substring containment. -/
def hasSub : List Char → List Char → Bool
  | [], needle => needle.isEmpty
  | c :: t, needle => needle.isPrefixOf (c :: t) || hasSub t needle

/-- ASCII uppercasing of one character. -/
def upperChar (c : Char) : Char :=
  if 'a' ≤ c ∧ c ≤ 'z' then Char.ofNat (c.toNat - 32) else c

/-- Title-casing of a degree name (uppercase the first letter of each
space-separated word); the flag marks a word start. -/
def titleCaseAux : Bool → List Char → List Char
  | _, [] => []
  | atStart, c :: cs =>
    if c = ' ' then c :: titleCaseAux true cs
    else (if atStart then upperChar c else c) :: titleCaseAux false cs

/-- Title-casing of a degree name. -/
def titleCase (s : Str) : Str := titleCaseAux true s

/-- Does a 4-digit year pattern start here: `19` or `20` followed by two
digits? -/
def yearAt (c0 c1 c2 c3 : Char) : Bool :=
  ((c0 = '1' && c1 = '9') || (c0 = '2' && c1 = '0')) &&
    c2.isDigit && c3.isDigit

/-- Modelled from the spec (4.2): the first 4-digit year beginning with
"19" or "20" found in the line, if any. -/
def findYear : Str → Option ℕ
  | [] => none
  | c0 :: rest =>
    match rest with
    | c1 :: c2 :: c3 :: _ =>
      if yearAt c0 c1 c2 c3 then
        some ((c0.toNat - 48) * 1000 + (c1.toNat - 48) * 100 +
          (c2.toNat - 48) * 10 + (c3.toNat - 48))
      else findYear rest
    | _ => none

/-- Modelled from the spec (4.2): does the (lowercased) line carry an
in-progress marker ("in progress" or "expected")? -/
def hasInProgressMarker (l : Str) : Bool :=
  hasSub l "in progress".toList || hasSub l "expected".toList

/-- Modelled from the spec (4.2): the per-line credential decision of
the Credential Detector for one vocabulary entry — skip the line on an
in-progress marker, otherwise accept the line's 4-digit year only when
it does not exceed the current calendar year. -/
def detectCredLine (tok : Str) (rank : ℕ) (line : Str) (currentYear : ℕ) :
    Option Credential :=
  let low := lower line
  if hasInProgressMarker low then none
  else
    match findYear low with
    | some y => if y ≤ currentYear then some ⟨titleCase tok, rank, y⟩ else none
    | none => none

/-! Helper lemmas. -/

theorem mem_counterKeys {w : Str} {l : List Str} :
    w ∈ counterKeys l ↔ w ∈ l := by
  unfold counterKeys
  rw [List.mem_reverse, List.mem_dedup, List.mem_reverse]

/-- Summing the Counter values over all keys gives the token count
(`sum(jd_counts.values()) = len(jd_tokens)`). -/
theorem counterKeys_sum_count (l : List Str) :
    ((counterKeys l).map (countOcc l)).sum = l.length := by
  have h : countOcc l = fun w => @List.count _ instBEqOfDecidableEq w l.reverse := by
    funext w
    unfold countOcc
    exact (@List.count_reverse _ instBEqOfDecidableEq w l).symm
  unfold counterKeys
  rw [h, List.map_reverse, List.sum_reverse, List.sum_map_count_dedup_eq_length,
    List.length_reverse]

/-- Summing the Counter values over the keys satisfying `p` counts the
occurrences satisfying `p`. -/
theorem counterKeys_filter_sum_count (p : Str → Bool) (l : List Str) :
    (((counterKeys l).filter p).map (countOcc l)).sum = l.countP p := by
  have h : countOcc l = fun w => @List.count _ instBEqOfDecidableEq w l.reverse := by
    funext w
    unfold countOcc
    exact (@List.count_reverse _ instBEqOfDecidableEq w l).symm
  unfold counterKeys
  rw [h, List.filter_reverse, List.map_reverse, List.sum_reverse,
    List.sum_map_count_dedup_filter_eq_countP, List.countP_reverse]

theorem roundHalfEvenNat_zero (den : ℕ) : roundHalfEvenNat 0 den = 0 := by
  unfold roundHalfEvenNat
  rcases Nat.eq_zero_or_pos den with h | h <;> simp [h]

theorem roundHalfEvenNat_le {num den k : ℕ} (hden : 0 < den)
    (h : num ≤ k * den) : roundHalfEvenNat num den ≤ k := by
  have hdm : den * (num / den) + num % den = num := Nat.div_add_mod num den
  have hd : num / den ≤ k := by
    have h2 := Nat.div_le_div_right (c := den) h
    rwa [Nat.mul_div_cancel k hden] at h2
  have hd1 : 1 ≤ num % den → num / den + 1 ≤ k := by
    intro hr
    have h2 : den * (num / den) < den * k := by
      have h3 : den * (num / den) + 1 ≤ k * den := by omega
      have h4 : k * den = den * k := Nat.mul_comm k den
      omega
    exact Nat.lt_of_mul_lt_mul_left h2
  unfold roundHalfEvenNat
  split
  · exact hd
  · split
    · exact hd1 (by omega)
    · split
      · exact hd
      · exact hd1 (by omega)

/-- The computed score coincides with the specification formula. -/
theorem score_eq_spec (r j : Str) :
    (compute_match_score r j).1 = specMatchScore r j := by
  simp only [compute_match_score, specMatchScore]
  by_cases h0 : ((tokenize j).isEmpty || (tokenize r).isEmpty) = true
  · simp [h0]
  · simp only [h0, if_false]
    have hmax := counterKeys_sum_count (tokenize j)
    have hraw :=
      counterKeys_filter_sum_count (fun w => decide (w ∈ tokenize r)) (tokenize j)
    have hlen : ¬((tokenize j).length = 0) := by
      intro hc
      rw [List.length_eq_zero] at hc
      simp [hc] at h0
    by_cases hov :
        ((counterKeys (tokenize j)).filter
          (fun w => decide (w ∈ tokenize r))).isEmpty = true
    · rw [List.isEmpty_iff] at hov
      have hz : List.countP (fun w => decide (w ∈ tokenize r)) (tokenize j) = 0 := by
        rw [← hraw, hov]
        simp
      simp [hov, hz, roundHalfEvenNat_zero]
    · simp only [hov, if_false, hmax, hraw, hlen, if_false]
      simp [hlen]

theorem specMatchScore_le (r j : Str) : specMatchScore r j ≤ 1000 := by
  simp only [specMatchScore]
  split
  · omega
  · next h0 =>
    have hlen : 0 < (tokenize j).length := by
      rcases Nat.eq_zero_or_pos (tokenize j).length with h | h
      · rw [List.length_eq_zero] at h
        simp [h] at h0
      · exact h
    apply roundHalfEvenNat_le hlen
    calc (tokenize j).countP (fun w => decide (w ∈ tokenize r)) * 1000
        ≤ (tokenize j).length * 1000 :=
          Nat.mul_le_mul_right 1000 (List.countP_le_length _)
      _ = 1000 * (tokenize j).length := Nat.mul_comm _ _

theorem compute_match_score_fst_le (r j : Str) :
    (compute_match_score r j).1 ≤ 1000 := by
  rw [score_eq_spec]; exact specMatchScore_le r j

theorem specMatchScore_zero_of_empty {r j : Str}
    (h : tokenize j = [] ∨ tokenize r = []) : specMatchScore r j = 0 := by
  simp only [specMatchScore]
  rcases h with h | h <;> simp [h]

/-- The gap invariant between consecutive merged intervals: starts are
ordered and the later start lies strictly after the earlier end. -/
def mergedGap (a b : Interval) : Prop :=
  dateLE a.start b.start ∧ ¬dateLE b.start a.stop

/-- The merge never changes the start of the current interval: its
output begins with an interval starting at `cur.start`. -/
theorem mergeSorted_head :
    ∀ (rest : List Interval) (cur : Interval),
      ∃ e tl, mergeSorted cur rest = ⟨cur.start, e⟩ :: tl := by
  intro rest
  induction rest with
  | nil =>
    intro cur
    exact ⟨cur.stop, [], rfl⟩
  | cons i t ih =>
    intro cur
    by_cases hc : dateLE i.start cur.stop
    · obtain ⟨e, tl, h⟩ := ih ⟨cur.start, dmax cur.stop i.stop⟩
      exact ⟨e, tl, by simpa [mergeSorted, hc] using h⟩
    · exact ⟨cur.stop, mergeSorted i t, by simp [mergeSorted, hc]⟩

/-- Merging a start-sorted list yields consecutive intervals separated
by genuine gaps. -/
theorem mergeSorted_chain :
    ∀ (rest : List Interval) (cur : Interval),
      List.Sorted intervalLE (cur :: rest) →
      List.Chain' mergedGap (mergeSorted cur rest) := by
  intro rest
  induction rest with
  | nil =>
    intro cur _
    simp [mergeSorted]
  | cons i t ih =>
    intro cur hs
    rw [List.sorted_cons] at hs
    obtain ⟨hcur, hst⟩ := hs
    by_cases hc : dateLE i.start cur.stop
    · have hs' : List.Sorted intervalLE (⟨cur.start, dmax cur.stop i.stop⟩ :: t) := by
        rw [List.sorted_cons]
        refine ⟨fun b hb => hcur b (List.mem_cons_of_mem i hb), ?_⟩
        rw [List.sorted_cons] at hst
        exact hst.2
      simpa [mergeSorted, hc] using ih _ hs'
    · obtain ⟨e, tl, heq⟩ := mergeSorted_head t i
      simp only [mergeSorted, hc, if_false]
      rw [List.chain'_cons']
      refine ⟨?_, ih i hst⟩
      intro y hy
      rw [heq] at hy
      simp only [List.head?_cons, Option.mem_def, Option.some.injEq] at hy
      subst hy
      exact ⟨hcur i (List.mem_cons_self i t), hc⟩

theorem mergeIntervals_chain (ivs : List Interval) :
    List.Chain' mergedGap (mergeIntervals ivs) := by
  unfold mergeIntervals
  split
  · simp
  · next c rest heq =>
    have hs := List.sorted_insertionSort intervalLE ivs
    rw [heq] at hs
    exact mergeSorted_chain rest c hs

theorem mergeIntervals_sorted (ivs : List Interval) :
    List.Sorted intervalLE (mergeIntervals ivs) := by
  have h2 : List.Chain' intervalLE (mergeIntervals ivs) :=
    (mergeIntervals_chain ivs).imp (fun a b hab => hab.1)
  exact List.chain'_iff_pairwise.mp h2

/-- Merging a sequence whose consecutive intervals already have gaps
changes nothing. -/
theorem mergeSorted_of_gaps :
    ∀ (rest : List Interval) (cur : Interval),
      List.Chain' mergedGap (cur :: rest) → mergeSorted cur rest = cur :: rest := by
  intro rest
  induction rest with
  | nil =>
    intro cur _
    rfl
  | cons i t ih =>
    intro cur h
    rw [List.chain'_cons] at h
    obtain ⟨hgap, htail⟩ := h
    simp only [mergeSorted, hgap.2, if_false]
    rw [ih i htail]

/-- A date with a calendar month (the parsed month names of spec 4.3
yield months 1-12). -/
def calendarDate (d : Date) : Prop := 1 ≤ d.month ∧ d.month ≤ 12

/-- A well-formed parsed interval: the start does not exceed the end
(intervals violating this are discarded at parse time, spec 4.3) and
both instants carry calendar months. -/
def validInterval (i : Interval) : Prop :=
  dateLE i.start i.stop ∧ calendarDate i.start ∧ calendarDate i.stop

/-- The merge preserves any property closed under its combination step. -/
theorem mergeSorted_pres (P : Interval → Prop)
    (hP : ∀ a b, P a → P b → P ⟨a.start, dmax a.stop b.stop⟩) :
    ∀ (rest : List Interval) (cur : Interval),
      P cur → (∀ i ∈ rest, P i) → ∀ j ∈ mergeSorted cur rest, P j := by
  intro rest
  induction rest with
  | nil =>
    intro cur hcur _ j hj
    simp only [mergeSorted, List.mem_singleton] at hj
    rw [hj]
    exact hcur
  | cons i t ih =>
    intro cur hcur hrest j hj
    by_cases hc : dateLE i.start cur.stop
    · simp only [mergeSorted, hc, if_true] at hj
      exact ih _ (hP cur i hcur (hrest i (List.mem_cons_self i t)))
        (fun k hk => hrest k (List.mem_cons_of_mem i hk)) j hj
    · simp only [mergeSorted, hc, if_false] at hj
      rcases List.mem_cons.mp hj with h | h
      · rw [h]
        exact hcur
      · exact ih i (hrest i (List.mem_cons_self i t))
          (fun k hk => hrest k (List.mem_cons_of_mem i hk)) j h

theorem validInterval_merge_step (a b : Interval) (ha : validInterval a)
    (hb : validInterval b) : validInterval ⟨a.start, dmax a.stop b.stop⟩ := by
  refine ⟨dateLE_trans ha.1 (dateLE_dmax_left _ _), ha.2.1, ?_⟩
  unfold dmax
  split
  · exact hb.2.2
  · exact ha.2.2

theorem mergeIntervals_valid {ivs : List Interval}
    (h : ∀ i ∈ ivs, validInterval i) :
    ∀ j ∈ mergeIntervals ivs, validInterval j := by
  unfold mergeIntervals
  split
  · intro j hj
    simp at hj
  · next c rest heq =>
    intro j hj
    have hmem : ∀ k ∈ c :: rest, validInterval k := by
      intro k hk
      rw [← heq] at hk
      exact h k ((List.mem_insertionSort intervalLE).mp hk)
    exact mergeSorted_pres validInterval validInterval_merge_step rest c
      (hmem c (List.mem_cons_self c rest))
      (fun k hk => hmem k (List.mem_cons_of_mem c hk)) j hj

theorem monthsOf_nonneg {i : Interval} (h : validInterval i) : 0 ≤ monthsOf i := by
  obtain ⟨h1, h2, h3⟩ := h
  unfold dateLE at h1
  unfold calendarDate at h2 h3
  unfold monthsOf
  split <;> omega

theorem totalMonths_nonneg {ivs : List Interval}
    (h : ∀ i ∈ ivs, validInterval i) : 0 ≤ totalMonths ivs := by
  unfold totalMonths
  apply List.sum_nonneg
  intro x hx
  rw [List.mem_map] at hx
  obtain ⟨j, hj, hx⟩ := hx
  rw [← hx]
  exact monthsOf_nonneg (mergeIntervals_valid h j hj)

theorem roundHalfEvenInt_nonneg {num den : ℤ} (hnum : 0 ≤ num)
    (hden : 0 < den) : 0 ≤ roundHalfEvenInt num den := by
  unfold roundHalfEvenInt
  have hd : 0 ≤ num / den := Int.ediv_nonneg hnum (le_of_lt hden)
  split
  · exact hd
  · split
    · omega
    · split <;> omega

/-- Every character of every run produced by `runsByAux` satisfies the
run predicate (provided the pending accumulator does). -/
theorem runsByAux_chars (p : Char → Bool) :
    ∀ (l acc : List Char), (∀ c ∈ acc, p c = true) →
      ∀ w ∈ runsByAux p l acc, ∀ c ∈ w, p c = true := by
  intro l
  induction l with
  | nil =>
    intro acc hacc w hw c hc
    by_cases h : acc.isEmpty
    · simp [runsByAux, h] at hw
    · simp [runsByAux, h] at hw
      subst hw
      exact hacc c (List.mem_reverse.mp hc)
  | cons b t ih =>
    intro acc hacc w hw c hc
    by_cases hb : p b = true
    · simp only [runsByAux, hb, if_true] at hw
      refine ih (b :: acc) ?_ w hw c hc
      intro d hd
      rcases List.mem_cons.mp hd with h | h
      · rw [h]
        exact hb
      · exact hacc d h
    · by_cases hacc2 : acc.isEmpty
      · simp [runsByAux, hb, hacc2] at hw
        exact ih [] (by simp) w hw c hc
      · simp [runsByAux, hb, hacc2] at hw
        rcases hw with h1 | h1
        · subst h1
          exact hacc c (List.mem_reverse.mp hc)
        · exact ih [] (by simp) w h1 c hc

/-- Every token produced by `tokenize` consists solely of `[a-z0-9]`
characters. -/
theorem tokenize_chars {text w : Str} (hw : w ∈ tokenize text) :
    ∀ c ∈ w, isTokChar c = true := by
  unfold tokenize findTokenRuns at hw
  exact runsByAux_chars isTokChar (lower text) [] (by simp) w
    (List.mem_filter.mp hw).1

/-- Every token produced by `tokenize` has more than 2 characters and
is not a stopword. -/
theorem tokenize_long_nonstop {text w : Str} (hw : w ∈ tokenize text) :
    2 < w.length ∧ w ∉ STOPWORDS := by
  unfold tokenize at hw
  exact of_decide_eq_true (List.mem_filter.mp hw).2

theorem joinWith_ne_nil {sep x : Str} {xs : List Str} (hx : x ≠ []) :
    joinWith sep (x :: xs) ≠ [] := by
  cases xs with
  | nil => simpa [joinWith] using hx
  | cons y ys =>
    simp only [joinWith]
    intro h
    exact hx (List.append_eq_nil.mp (List.append_eq_nil.mp h).1).1

theorem detailsText_ne_nil (score : ℕ)
    (top_keywords raw_extra matched_extra missing_extra : List Str) :
    detailsText score top_keywords raw_extra matched_extra missing_extra ≠ [] := by
  simp only [detailsText, List.cons_append, List.nil_append]
  apply joinWith_ne_nil
  intro h
  have h1 : ("Estimated AI match score: ".toList : Str) = [] :=
    (List.append_eq_nil.mp (List.append_eq_nil.mp h).1).1
  exact absurd h1 (by decide)

/-- A well-formed `analyze_fit` result: the score string is `"0 %"` or a
formatted one-decimal percentage no greater than 100, and the details
string is non-empty. -/
def wellFormedResult (p : Str × Str) : Prop :=
  (p.1 = "0 %".toList ∨
    ∃ n, n ≤ 1000 ∧ p.1 = formatTenths n ++ " %".toList) ∧
  p.2 ≠ []

/-- Whenever `extract_text_from_any` reports no error, the text it
returns has non-whitespace content (so the scanned-document guards of
`analyze_fit` lines 125-128 can never fire). -/
theorem extract_ok_strip_ne_nil (env : ExtractEnv)
    (fb : Option (List ℕ)) (h : (extract_text_from_any env fb).2 = []) :
    (pyStrip (extract_text_from_any env fb).1).isEmpty = false := by
  unfold extract_text_from_any at *
  match fb with
  | none => simp at h
  | some bs =>
    by_cases hb : bs.length = 0
    · simp [hb] at h
    · simp only [hb, if_false] at h ⊢
      cases hpdf : env.pdfPages bs with
      | some pages =>
        simp only [hpdf] at h ⊢
        by_cases hstrip :
            (pyStrip (joinWith ['\n'] (pages.map (fun p => p.getD [])))).isEmpty
        · simp only [hstrip, if_true] at h ⊢
          unfold extractDocx at h ⊢
          cases hdocx : env.docxParas bs with
          | some paragraphs =>
            simp only [hdocx] at h ⊢
            by_cases hstrip2 : (pyStrip (joinWith ['\n'] paragraphs)).isEmpty
            · simp [hstrip2, cannotReadMsg] at h
            · simp only [hstrip2, if_false]
              simp only [Bool.not_eq_true] at hstrip2
              exact hstrip2
          | none => simp [hdocx, cannotReadMsg] at h
        · simp only [hstrip, if_false]
          simp only [Bool.not_eq_true] at hstrip
          exact hstrip
      | none =>
        simp only [hpdf] at h ⊢
        unfold extractDocx at h ⊢
        cases hdocx : env.docxParas bs with
        | some paragraphs =>
          simp only [hdocx] at h ⊢
          by_cases hstrip2 : (pyStrip (joinWith ['\n'] paragraphs)).isEmpty
          · simp [hstrip2, cannotReadMsg] at h
          · simp only [hstrip2, if_false]
            simp only [Bool.not_eq_true] at hstrip2
            exact hstrip2
        | none => simp [hdocx, cannotReadMsg] at h

theorem append_ne_nil_left {a b : Str} (h : a ≠ []) : a ++ b ≠ [] := by
  intro hc
  exact h (List.append_eq_nil.mp hc).1

instance (i : Interval) : Decidable (validInterval i) := by
  unfold validInterval calendarDate
  exact inferInstance

/-- The fixed sample text of the C3 counterexample (6 words). -/
def sampleShortText : Str := "python developer with strong sql skills".toList

/-- An extraction environment whose PDF reader always yields
`sampleShortText`. -/
def envC3 : ExtractEnv :=
  ⟨fun _ => some [some sampleShortText], fun _ => none⟩

/-- An extraction environment whose PDF reader always yields "hi". -/
def envTiny : ExtractEnv :=
  ⟨fun _ => some [some "hi".toList], fun _ => none⟩

/-! The claims. -/

/-- C1: for every input to `analyze_fit` — missing files (`none` bytes),
arbitrary extraction outcomes for undecodable bytes, empty text, `None`
extra-keyword string — the function returns a well-formed (score string,
details string) pair, and, being a total function of the input and the
extraction environment, never raises: failures appear only as message
content of the returned pair. -/
theorem claim_C1_analyze_fit_total (env : ExtractEnv)
    (resume_bytes jd_bytes : Option (List ℕ)) (extra : Option Str) :
    wellFormedResult (analyze_fit env resume_bytes jd_bytes extra) := by
  simp only [analyze_fit, wellFormedResult]
  split
  · exact ⟨Or.inl rfl, by decide⟩
  · split
    · exact ⟨Or.inl rfl, by decide⟩
    · split
      · exact ⟨Or.inl rfl, by decide⟩
      · split
        · exact ⟨Or.inl rfl, append_ne_nil_left (by decide)⟩
        · split
          · exact ⟨Or.inl rfl, append_ne_nil_left (by decide)⟩
          · split
            · exact ⟨Or.inl rfl, by decide⟩
            · split
              · exact ⟨Or.inl rfl, by decide⟩
              · exact ⟨Or.inr ⟨_, compute_match_score_fst_le _ _, rfl⟩,
                  detailsText_ne_nil _ _ _ _ _⟩

/-- C2: the score of `compute_match_score` equals the sum of
job-description term frequencies of tokens that also occur in the
resume, divided by the total job-description term frequency, times 100,
rounded to one decimal place (both sides in tenths of a percent); and it
is 0 whenever either text tokenizes to the empty list. -/
theorem claim_C2_score_formula (resume_text jd_text : Str) :
    (compute_match_score resume_text jd_text).1 =
      specMatchScore resume_text jd_text ∧
    (tokenize jd_text = [] ∨ tokenize resume_text = [] →
      (compute_match_score resume_text jd_text).1 = 0) := by
  refine ⟨score_eq_spec _ _, fun h => ?_⟩
  rw [score_eq_spec]
  exact specMatchScore_zero_of_empty h

theorem claim_C2_witness :
    (tokenize "".toList = [] ∨ tokenize "abc def".toList = []) ∧
      (compute_match_score "abc def".toList "".toList).1 = 0 :=
  ⟨Or.inl rfl,
    (claim_C2_score_formula "abc def".toList "".toList).2 (Or.inl rfl)⟩

/-- C3 counterexample: a successfully extracted resume text of 6 words
(fewer than 50) is not short-circuited to the "unreadable" variant; the
analysis proceeds and returns a 100.0 % score instead of the predicted
"0 %" low-confidence result. -/
theorem claim_C3_counterexample :
    wordCount sampleShortText < 50 ∧
    (pyStrip sampleShortText).isEmpty = false ∧
    (analyze_fit envC3 (some [1]) (some [1]) none).1 = "100.0 %".toList ∧
    (analyze_fit envC3 (some [1]) (some [1]) none).1 ≠ "0 %".toList := by
  decide

/-- C3 (amended): the only low-content short-circuit is the extraction
error path: whenever `extract_text_from_any` reports success (empty
error string), the returned text has non-whitespace content, so the
dedicated "unreadable / scanned" branch of `analyze_fit` (lines 125-128)
can never fire, and no 50-word threshold exists. -/
theorem claim_C3_amended (env : ExtractEnv) (fb : Option (List ℕ))
    (h : (extract_text_from_any env fb).2 = []) :
    (pyStrip (extract_text_from_any env fb).1).isEmpty = false :=
  extract_ok_strip_ne_nil env fb h

theorem claim_C3_witness :
    (extract_text_from_any envTiny (some [1])).2 = [] ∧
      (pyStrip (extract_text_from_any envTiny (some [1])).1).isEmpty = false :=
  ⟨by decide, claim_C3_amended envTiny (some [1]) (by decide)⟩

/-- C4: the analysis is deterministic — for a fixed extraction
environment, fixed input bytes and a fixed extra-keywords string, two
runs of `analyze_fit` produce identical results (the embedding is a pure
function; the source's only iteration orders, Python dict/Counter
insertion orders and the stable sort, are fixed by the input). -/
theorem claim_C4_deterministic (env : ExtractEnv)
    (resume_bytes jd_bytes : Option (List ℕ)) (extra : Option Str) :
    analyze_fit env resume_bytes jd_bytes extra =
      analyze_fit env resume_bytes jd_bytes extra := rfl

/-- C5: the interval merge is idempotent — merging an already-merged
sequence yields the same sequence again. -/
theorem claim_C5_merge_idempotent (ivs : List Interval) :
    mergeIntervals (mergeIntervals ivs) = mergeIntervals ivs := by
  have hs := mergeIntervals_sorted ivs
  have hc := mergeIntervals_chain ivs
  cases hm : mergeIntervals ivs with
  | nil => rfl
  | cons c rest =>
    rw [hm] at hs hc
    unfold mergeIntervals
    rw [hs.insertionSort_eq]
    exact mergeSorted_of_gaps rest c hc

/-- C6: for every sequence of well-formed parsed intervals (start not
after end, calendar months), the total-years value is non-negative and
equals the sum over merged intervals of whole months — the end/start
year and month difference formula with the day-of-month decrement —
divided by 12 and rounded to two decimals (both sides in hundredths of a
year). -/
theorem claim_C6_total_years (ivs : List Interval)
    (h : ∀ i ∈ ivs, validInterval i) :
    0 ≤ totalYearsCents ivs ∧
      totalYearsCents ivs =
        roundHalfEvenInt (100 * ((mergeIntervals ivs).map monthsOf).sum) 12 := by
  refine ⟨?_, rfl⟩
  unfold totalYearsCents
  refine roundHalfEvenInt_nonneg ?_ (by norm_num)
  have h2 := totalMonths_nonneg h
  omega

theorem claim_C6_witness :
    (∀ i ∈ [(⟨⟨2018, 1, 1⟩, ⟨2024, 6, 1⟩⟩ : Interval)], validInterval i) ∧
      0 ≤ totalYearsCents [⟨⟨2018, 1, 1⟩, ⟨2024, 6, 1⟩⟩] :=
  ⟨by decide, (claim_C6_total_years _ (by decide)).1⟩

/-- C7: the per-line credential decision skips any line carrying an
in-progress marker ("in progress" or "expected"), and otherwise produces
a credential only when the line contains a 4-digit year beginning with
"19" or "20" that does not exceed the current calendar year; in
particular "Bachelor of Science, expected 2025" yields no completed
credential. -/
theorem claim_C7_credential_line :
    (∀ (tok : Str) (rank : ℕ) (line : Str) (cy : ℕ),
      hasInProgressMarker (lower line) = true →
        detectCredLine tok rank line cy = none) ∧
    (∀ (tok : Str) (rank : ℕ) (line : Str) (cy : ℕ) (c : Credential),
      detectCredLine tok rank line cy = some c →
        ∃ y, findYear (lower line) = some y ∧ y ≤ cy ∧ c.year = y) ∧
    detectCredLine "bachelor".toList 4
      "Bachelor of Science, expected 2025".toList 2030 = none := by
  refine ⟨?_, ?_, by decide⟩
  · intro tok rank line cy h
    simp only [detectCredLine, h, if_true]
  · intro tok rank line cy c h
    simp only [detectCredLine] at h
    by_cases hm : hasInProgressMarker (lower line) = true
    · simp [hm] at h
    · simp only [hm, Bool.false_eq_true, if_false] at h
      cases hy : findYear (lower line) with
      | none => rw [hy] at h; simp at h
      | some y =>
        rw [hy] at h
        by_cases hle : y ≤ cy
        · simp only [hle, if_true, Option.some.injEq] at h
          exact ⟨y, rfl, hle, by rw [← h]⟩
        · simp [hle] at h

theorem claim_C7_witness :
    detectCredLine "phd".toList 6 "PhD thesis in progress 1999".toList 2024 =
      none :=
  claim_C7_credential_line.1 "phd".toList 6
    "PhD thesis in progress 1999".toList 2024 (by decide)

/-- C8: the score of `compute_match_score` always lies within [0, 100]
percent (0 to 1000 tenths): it is 0 when either token list is empty or
no token is shared, and the overlap frequency sum never exceeds the
total job-description frequency, so the percentage never exceeds 100. -/
theorem claim_C8_score_bounds (resume_text jd_text : Str) :
    0 ≤ (compute_match_score resume_text jd_text).1 ∧
    (compute_match_score resume_text jd_text).1 ≤ 1000 ∧
    (tokenize jd_text = [] ∨ tokenize resume_text = [] →
      (compute_match_score resume_text jd_text).1 = 0) ∧
    ((∀ w ∈ tokenize jd_text, w ∉ tokenize resume_text) →
      (compute_match_score resume_text jd_text).1 = 0) := by
  refine ⟨Nat.zero_le _, compute_match_score_fst_le _ _, fun h => ?_, fun h => ?_⟩
  · rw [score_eq_spec]
    exact specMatchScore_zero_of_empty h
  · rw [score_eq_spec]
    simp only [specMatchScore]
    split
    · rfl
    · have hz : List.countP (fun w => decide (w ∈ tokenize resume_text))
          (tokenize jd_text) = 0 := by
        rw [List.countP_eq_zero]
        intro a ha
        simp only [decide_eq_true_eq]
        exact h a ha
      rw [hz]
      simp [roundHalfEvenNat_zero]

theorem claim_C8_witness :
    (∀ w ∈ tokenize "alpha beta".toList, w ∉ tokenize "gamma delta".toList) ∧
      (compute_match_score "gamma delta".toList "alpha beta".toList).1 = 0 :=
  ⟨by decide,
    (claim_C8_score_bounds "gamma delta".toList "alpha beta".toList).2.2.2
      (by decide)⟩

/-- C9: the overlapping-keywords list returned by `compute_match_score`
has at most 15 entries, each entry occurs in both the tokenized job
description and the tokenized resume, and entries are ordered by
non-increasing job-description frequency. -/
theorem claim_C9_top_keywords (resume_text jd_text : Str) :
    (compute_match_score resume_text jd_text).2.length ≤ 15 ∧
    (∀ w ∈ (compute_match_score resume_text jd_text).2,
      w ∈ tokenize jd_text ∧ w ∈ tokenize resume_text) ∧
    List.Pairwise
      (fun a b =>
        countOcc (tokenize jd_text) b ≤ countOcc (tokenize jd_text) a)
      (compute_match_score resume_text jd_text).2 := by
  simp only [compute_match_score]
  by_cases h0 : ((tokenize jd_text).isEmpty || (tokenize resume_text).isEmpty) = true
  · simp [h0]
  · simp only [h0, if_false]
    by_cases hov : ((counterKeys (tokenize jd_text)).filter
        (fun w => decide (w ∈ tokenize resume_text))).isEmpty = true
    · simp [hov]
    · simp only [hov, if_false]
      by_cases hmax0 : (((counterKeys (tokenize jd_text)).map
          (countOcc (tokenize jd_text))).sum = 0)
      · simp [hmax0]
      · simp only [hmax0, if_false]
        haveI h1 : IsTotal Str (fun a b =>
            countOcc (tokenize jd_text) b ≤ countOcc (tokenize jd_text) a) :=
          ⟨fun a b => Nat.le_total _ _⟩
        haveI h2 : IsTrans Str (fun a b =>
            countOcc (tokenize jd_text) b ≤ countOcc (tokenize jd_text) a) :=
          ⟨fun _ _ _ hab hbc => Nat.le_trans hbc hab⟩
        refine ⟨?_, ?_, ?_⟩
        · exact List.length_take_le 15 _
        · intro w hw
          have hw2 := List.mem_of_mem_take hw
          have hw3 := (List.mem_insertionSort _).mp hw2
          have hw4 := List.mem_filter.mp hw3
          exact ⟨mem_counterKeys.mp hw4.1, of_decide_eq_true hw4.2⟩
        · have hs := List.sorted_insertionSort
            (fun a b =>
              countOcc (tokenize jd_text) b ≤ countOcc (tokenize jd_text) a)
            ((counterKeys (tokenize jd_text)).filter
              (fun w => decide (w ∈ tokenize resume_text)))
          exact List.Pairwise.sublist (List.take_sublist 15 _) hs

theorem claim_C9_witness :
    ("sql".toList ∈ (compute_match_score "use sql daily".toList
        "sql and python".toList).2) ∧
      "sql".toList ∈ tokenize "sql and python".toList ∧
      "sql".toList ∈ tokenize "use sql daily".toList :=
  ⟨by decide,
    (claim_C9_top_keywords "use sql daily".toList
      "sql and python".toList).2.1 "sql".toList (by decide)⟩

/-- C10: an extra keyword whose stripped lowercase form has length at
most 2, is a stopword, or contains a character outside `[a-z0-9]` is
always classified as missing from the resume, whatever the resume text —
membership is tested against the tokenized resume, whose tokens are
single alphanumeric words of length greater than 2 excluding
stopwords. -/
theorem claim_C10_unmatchable_extra (resume_text extra kw : Str)
    (hkw : kw ∈ rawExtraKeywords extra)
    (hbad : kw.length ≤ 2 ∨ kw ∈ STOPWORDS ∨ ∃ c ∈ kw, ¬isTokChar c = true) :
    kw ∈ missingExtra resume_text extra := by
  unfold missingExtra
  rw [List.mem_filter]
  refine ⟨hkw, ?_⟩
  rw [decide_eq_true_eq]
  intro hmem
  rcases hbad with h | h | ⟨c, hc, hnc⟩
  · have h2 := (tokenize_long_nonstop hmem).1
    omega
  · exact (tokenize_long_nonstop hmem).2 h
  · exact hnc (tokenize_chars hmem c hc)

theorem claim_C10_witness :
    ("go".toList ∈ rawExtraKeywords "go".toList) ∧
      "go".toList ∈ missingExtra "we all go home".toList "go".toList :=
  ⟨by decide,
    claim_C10_unmatchable_extra "we all go home".toList "go".toList
      "go".toList (by decide) (Or.inl (by decide))⟩

end ResumeAnalyzer
